import Mathlib

/-!
Verification of the `zen::corex` container library (`CoreX/src/String.cpp`,
`CoreX/src/String.h` and the `Array<T>` template) against its natural-language
specification.

The C++ `String` stores a raw `char*` buffer, a logical `size` (number of
content characters, excluding the terminator) and an allocated `capacity`.
We embed a `String` value as the list of characters actually stored in its
buffer up to and including the null terminator written by `initialize`,
together with the `size` and `capacity` fields.  For a string built by
`initialize` from non-empty input the buffer holds `input ++ [NUL]`; for the
empty input the code allocates `DEFAULT_CAPACITY` cells but writes nothing,
so the model records no specified cells (`data = []`).

All mutating operations of the C++ class rebuild the string through
`initialize`, which the embedding mirrors.  C standard-library calls
(`strlen`, `strcpy`, `strstr`, `sscanf`, conversion of a `char*` to
`std::string`) see the buffer only up to the first NUL character; the model
makes that explicit via `cstr`.
-/

namespace ZenCorex

/-- The null terminator character. -/
def nulChar : Char := Char.ofNat 0

/-- Shallow embedding of `zen::corex::String`: `data` is the specified part of
the character buffer (content plus the terminator written by `initialize`),
`size` and `capacity` are the corresponding fields. -/
structure DynString where
  data : List Char
  size : Nat
  capacity : Nat
deriving DecidableEq, Repr

/-- Source constant `String::DEFAULT_CAPACITY = 32`. -/
def DEFAULT_CAPACITY : Nat := 32

/-- Embedding of `String::initialize(const std::string& input)`:
empty input sets `size = 0`, `capacity = DEFAULT_CAPACITY` and allocates an
uninitialized buffer (no specified cells); non-empty input sets
`size = input.length()`, rounds `size + 1` up to the next multiple of 32 for
`capacity`, copies the input and writes the terminator at index `size`. -/
def DynString.initializeFrom (input : List Char) : DynString :=
  if input = [] then
    { data := [], size := 0, capacity := DEFAULT_CAPACITY }
  else
    { data := input ++ [nulChar]
      size := input.length
      capacity := ((input.length + 1 + 31) / 32) * 32 }

/-- The logical content of the string: the buffer characters at indices
`0 ..< size` (the characters every loop of the class iterates over). -/
def content (s : DynString) : List Char := s.data.take s.size

/-- Embedding of `String::toString()`: builds a `std::string` from `data[i]` for
`i = 0 ..< size`, i.e. exactly the logical content. -/
def DynString.toString (s : DynString) : List Char := content s

/-- What the C string functions (`strlen`, `strcpy`, `strstr`, `sscanf`,
`std::string(const char*)`) see when handed the raw buffer: the characters
before the first NUL. -/
def cstr (s : DynString) : List Char := s.data.takeWhile (fun c => c ≠ nulChar)

/-! ### First-index linear scan

`String::contains`, `strstr` (used by `remove` and `replace`) and
`Array<T>::remove` all scan forward and stop at the first hit.  `scanFirst`
is the common embedding of such a loop: it tests indices
`start, start+1, ..., start+count-1` in order and returns the first index
satisfying the predicate. -/

def scanFirst (p : Nat → Bool) : Nat → Nat → Option Nat
  | _, 0 => none
  | start, count + 1 => if p start then some start else scanFirst p (start + 1) count

/-- Predicate: `t` occurs in `s` at start index `i`: the slice of `s` of length
`t.length` beginning at `i` exists and equals `t`. -/
def occursAt (pat hay : List Char) (i : Nat) : Prop :=
  i + pat.length ≤ hay.length ∧ (hay.drop i).take pat.length = pat

instance (pat hay : List Char) (i : Nat) : Decidable (occursAt pat hay i) := by
  unfold occursAt; infer_instance

/-- Predicate: `t` occurs somewhere in `s`. -/
def occursIn (pat hay : List Char) : Prop := ∃ i, occursAt pat hay i

/-- The inner loop of `String::contains` (and of a `strstr` scan) at start
index `i`: `data[i + j] == input[j]` for every `j < input.length`, i.e. the
length-`pat.length` slice of `hay` at `i` equals `pat`. -/
def matchAt (hay pat : List Char) (i : Nat) : Bool :=
  decide ((hay.drop i).take pat.length = pat)

/-- Embedding of `strstr(hay, pat)` for a haystack/needle seen as C strings: the least
start index at which `pat` occurs in `hay`, or `none`.  (`strstr` scans
forward from the start of the haystack and stops at the first match.) -/
def strstrIdx (hay pat : List Char) : Option Nat :=
  scanFirst (fun i => matchAt hay pat i) 0 (hay.length + 1)

/-! ### DynString operations -/

/-- Embedding of `String::clear()`: `initialize("")`. -/
def DynString.clear (_s : DynString) : DynString := DynString.initializeFrom []

/-- Embedding of `String::reverse()`: builds `str = data[size], data[size-1], ..., data[0]`
(the loop starts at `i = size`, so it also reads the cell holding the null
terminator) and re-initializes from that `std::string`.  In the model this is
the reversal of the first `size + 1` buffer cells. -/
def DynString.reverse (s : DynString) : DynString :=
  DynString.initializeFrom ((s.data.take (s.size + 1)).reverse)

/-- Embedding of `String::append(const String&)`: no-op when `input` is empty; otherwise a
fresh buffer receives `strcpy`'s copy of the current C string followed by the
`input.getSize()` characters of `input.toString()` and a terminator, and the
result of converting that buffer back to `std::string` (which stops at the
first NUL) is re-initialized. -/
def DynString.append (s input : DynString) : DynString :=
  if input.size = 0 then s
  else
    DynString.initializeFrom
      ((cstr s ++ DynString.toString input).takeWhile (fun c => c ≠ nulChar))

/-- Embedding of `String::operator+=(const String& input)`:
`if (this == &input || input.getSize() == 0) return *this; append(input);`.
`sameObject` models the `this == &input` aliasing test. -/
def DynString.plusEq (sameObject : Bool) (s input : DynString) : DynString :=
  if sameObject = true ∨ input.size = 0 then s
  else DynString.append s input

/-- Embedding of `String::remove(const String& input)`: no-op when the substring is empty
or longer than the string; otherwise `strstr` locates the first occurrence in
the C string, a fresh buffer receives the `index` characters before it, the
`size - (index + input.size)` raw buffer characters after it and a
terminator, and the buffer is converted to `std::string` (stopping at the
first NUL) and re-initialized. -/
def DynString.remove (s input : DynString) : DynString :=
  if input.size = 0 ∨ s.size < input.size then s
  else
    match strstrIdx (cstr s) (cstr input) with
    | none => s
    | some index =>
        let afterIndex := index + input.size
        let remaining := s.size - afterIndex
        let newData := (cstr s).take index ++ (s.data.drop afterIndex).take remaining
        DynString.initializeFrom (newData.takeWhile (fun c => c ≠ nulChar))

/-- Embedding of `String::replace(const String& oldStr, const String& newStr)`: no-op when
`oldStr` is empty or `strstr` finds no occurrence; otherwise the fresh buffer
holds the prefix before the occurrence, `strcat`'s copy of `newStr`'s C
string, and the C string starting at `data + index + oldStr.size`. -/
def DynString.replace (s oldStr newStr : DynString) : DynString :=
  if oldStr.size = 0 then s
  else
    match strstrIdx (cstr s) (cstr oldStr) with
    | none => s
    | some index =>
        DynString.initializeFrom
          ((cstr s).take index ++ cstr newStr ++
            (s.data.drop (index + oldStr.size)).takeWhile (fun c => c ≠ nulChar))

/-- Embedding of `String::contains(const String& input)`: `-1` when `input` is empty or
longer than the string; otherwise the loop tries each start index
`i = 0 ..< size - input.size + 1` in order and returns the first one whose
characters all match, else `-1`. -/
def DynString.contains (s input : DynString) : Int :=
  if input.size = 0 then -1
  else if s.size < input.size then -1
  else
    match scanFirst (fun i => matchAt (content s) (content input) i) 0
        (s.size - input.size + 1) with
    | some i => (i : Int)
    | none => -1

/-- Embedding of `String::operator=(const String& input)`:
`if (this == &input || input.isEmpty() == 0) return *this;` — note the
comparison of the `bool` result of `isEmpty()` with `0`, so the early return
fires exactly when `input` is NOT empty — otherwise
`initialize(input.toString())`. -/
def DynString.assignFromString (sameObject : Bool) (dest input : DynString) :
    DynString :=
  if sameObject = true ∨ ¬ input.size = 0 then dest
  else DynString.initializeFrom (DynString.toString input)

/-- Embedding of `String::operator=(const std::string& input)`: no-op when `input` is
empty, otherwise `initialize(input)`. -/
def DynString.assignFromStd (dest : DynString) (input : List Char) : DynString :=
  if input = [] then dest else DynString.initializeFrom input

/-- Embedding of `String::operator=(const char* input)`: no-op when the pointer is null
(`none`), otherwise `initialize(std::string(input))`; the list is the
sequence of characters before the terminator of the C string. -/
def DynString.assignFromCString (dest : DynString) (input : Option (List Char)) :
    DynString :=
  match input with
  | none => dest
  | some chars => DynString.initializeFrom chars

/-! ### Numeric conversion (`sscanf` with `%d`) -/

/-- C locale `isspace`: space, `\t`, `\n`, vertical tab, form feed, `\r`. -/
def spaceC (c : Char) : Bool :=
  c = ' ' || c = Char.ofNat 9 || c = Char.ofNat 10 || c = Char.ofNat 11 ||
    c = Char.ofNat 12 || c = Char.ofNat 13

/-- Decimal value of a digit string (most significant digit first). -/
def natOfDigits (ds : List Char) : Nat :=
  ds.foldl (fun acc c => 10 * acc + (c.toNat - Char.toNat '0')) 0

/-- Reduction of a mathematical value to the 32-bit two's-complement `int`
that `sscanf(..., "%d", &number)` stores into.  C leaves `int` overflow
here undefined; glibc computes the value in a wider register and the
conversion to `int` wraps modulo `2^32`, which the model adopts.  On
`[-2^31, 2^31 - 1]` (the only range where the C behavior is defined) this
is the identity. -/
def wrap32 (n : Int) : Int := (n + 2147483648) % 4294967296 - 2147483648

/-- The digit-run stage of `%d`: consume a maximal non-empty run of digits
and succeed with the signed value as stored into the 32-bit `int` target
(`wrap32`), ignoring whatever follows the run; fail (matching failure,
`sscanf` returns 0) when no digit is found. -/
def sscanfDigits (sgn : Int) (l2 : List Char) : Option Int :=
  let ds := l2.takeWhile Char.isDigit
  if ds.isEmpty then none else some (wrap32 (sgn * (natOfDigits ds : Int)))

/-- The sign stage of `%d`: an optional leading `-` or `+`. -/
def sscanfSign (l1 : List Char) : Option Int :=
  if l1.head? = some '-' then sscanfDigits (-1) l1.tail
  else if l1.head? = some '+' then sscanfDigits 1 l1.tail
  else sscanfDigits 1 l1

/-- Embedding of `sscanf(buf, "%d", &n)` viewed as a partial function: skip leading
whitespace, consume an optional sign, then a maximal non-empty run of
digits (ignoring any trailing characters). -/
def sscanfD (l : List Char) : Option Int :=
  sscanfSign (l.dropWhile spaceC)

/-- Error value for failed numeric conversions
(`std::invalid_argument("number convertion failed")`). -/
inductive ConvError where
  | conversionFailure
deriving DecidableEq, Repr

/-- Embedding of `String::toInt()`: runs `sscanf(data, "%d", &number)` on the buffer's C
string; returns the number on success and throws on failure. -/
def DynString.toInt (s : DynString) : Except ConvError Int :=
  match sscanfD (cstr s) with
  | some n => Except.ok n
  | none => Except.error ConvError.conversionFailure

/-! ### Well-formedness and the capacity invariant -/

/-- Shape of every buffer produced by `initialize`: either the string is
empty with no specified cells, or the buffer holds exactly `size` content
characters followed by the null terminator. -/
def strWF (s : DynString) : Prop :=
  (s.size = 0 ∧ s.data = []) ∨
    (s.data.length = s.size + 1 ∧ s.data.drop s.size = [nulChar])

instance (s : DynString) : Decidable (strWF s) := by
  unfold strWF; infer_instance

/-- The capacity invariant of the spec: `size < capacity`, and `capacity` is
a positive multiple of 32. -/
def strInv (s : DynString) : Prop :=
  s.size < s.capacity ∧ s.capacity % 32 = 0 ∧ 0 < s.capacity

instance (s : DynString) : Decidable (strInv s) := by
  unfold strInv; infer_instance

/-! ### DynArray: the `zen::corex::Array<T>` template

`Array<T>` holds a `std::unique_ptr<T[]> data` and a `size_t size`.  The
embedding keeps the nullable buffer (`Option (List α)`, `none` modelling
`nullptr`) and the `size` field.  All reachable buffers are allocated at
exactly the current size. -/

structure DynArray (α : Type) where
  data : Option (List α)
  size : Nat
deriving DecidableEq, Repr

/-- The elements every loop of the class iterates over: the first `size`
cells of the buffer (`nullptr` contributes none). -/
def elems {α : Type} (a : DynArray α) : List α :=
  match a.data with
  | none => []
  | some l => l.take a.size

/-- Embedding of `Array()`: `data(nullptr), size(0)`. -/
def DynArray.empty (α : Type) : DynArray α := { data := none, size := 0 }

/-- Embedding of `Array(const std::vector<T>&)`: allocates `items.size()` cells and copies
the elements in order. -/
def fromVector {α : Type} (items : List α) : DynArray α :=
  { data := some items, size := items.length }

/-- Embedding of `Array(Array&& other) noexcept : data(std::move(other.data)),
size(other.size) {}` — the `unique_ptr` move nulls the source's buffer, while
the source's `size` member is left untouched.  Returns
(the new array, the moved-from source). -/
def DynArray.moveCtor {α : Type} (other : DynArray α) : DynArray α × DynArray α :=
  ({ data := other.data, size := other.size }, { data := none, size := other.size })

/-- Embedding of `Array<T>::add`: fresh buffer of `size + 1` cells, the old elements, then
the new one. -/
def DynArray.add {α : Type} (a : DynArray α) (x : α) : DynArray α :=
  { data := some (elems a ++ [x]), size := a.size + 1 }

/-- Error value for `Array<T>::remove`
(`std::runtime_error("the key is not in the array")`). -/
inductive ArrayError where
  | notFound
deriving DecidableEq, Repr

/-- Index of the first element equal to `v`, mirroring the scan
`for (i = 0; i < size; i++) if (data[i] == input) ...`. -/
def findIndex {α : Type} [DecidableEq α] (v : α) : List α → Option Nat
  | [] => none
  | x :: xs => if x = v then some 0 else Option.map (· + 1) (findIndex v xs)

/-- Embedding of `Array<T>::remove(const T& input)`: finds the first element equal to
`input`; if found, shifts `data[j] = data[j+1]` for `j = i ..< size - 1` and
decrements `size` (the stale final cell is beyond the new size and never read
again); otherwise throws, having written nothing. -/
def DynArray.remove {α : Type} [DecidableEq α] (a : DynArray α) (v : α) :
    Except ArrayError (DynArray α) :=
  match findIndex v (elems a) with
  | some i =>
      Except.ok { data := some ((elems a).take i ++ (elems a).drop (i + 1))
                  size := a.size - 1 }
  | none => Except.error ArrayError.notFound

/-! ### General lemmas -/

theorem scanFirst_eq_some (p : Nat → Bool) :
    ∀ (count start i : Nat), scanFirst p start count = some i →
      p i = true ∧ start ≤ i ∧ i < start + count ∧
        ∀ j, start ≤ j → j < i → p j = false := by
  intro count
  induction count with
  | zero => intro start i h; simp [scanFirst] at h
  | succ n ih =>
    intro start i h
    by_cases hp : p start = true
    · simp only [scanFirst, hp, if_pos] at h
      obtain rfl : start = i := by simpa using h
      exact ⟨hp, Nat.le_refl _, by omega, fun j h1 h2 => by omega⟩
    · have hp' : p start = false := by simpa using hp
      simp only [scanFirst, hp', Bool.false_eq_true, if_false] at h
      obtain ⟨h1, h2, h3, h4⟩ := ih (start + 1) i h
      refine ⟨h1, by omega, by omega, ?_⟩
      intro j hj1 hj2
      rcases Nat.eq_or_lt_of_le hj1 with hj | hj
      · exact hj ▸ hp'
      · exact h4 j hj hj2

theorem scanFirst_some_of_ex (p : Nat → Bool) :
    ∀ (count start j : Nat), start ≤ j → j < start + count → p j = true →
      ∃ i, scanFirst p start count = some i := by
  intro count
  induction count with
  | zero => intro start j h1 h2 _; omega
  | succ n ih =>
    intro start j h1 h2 hp
    by_cases hs : p start = true
    · exact ⟨start, by simp [scanFirst, hs]⟩
    · have hs' : p start = false := by simpa using hs
      have hj : start + 1 ≤ j := by
        rcases Nat.eq_or_lt_of_le h1 with h | h
        · exact absurd (h ▸ hp) (by simp [hs'])
        · omega
      obtain ⟨i, hi⟩ := ih (start + 1) j hj (by omega) hp
      exact ⟨i, by simpa [scanFirst, hs'] using hi⟩

theorem matchAt_eq_true_iff (hay pat : List Char) (i : Nat) (hp : pat ≠ []) :
    matchAt hay pat i = true ↔ occursAt pat hay i := by
  unfold matchAt occursAt
  rw [decide_eq_true_eq]
  constructor
  · intro h
    refine ⟨?_, h⟩
    have hl := congrArg List.length h
    simp only [List.length_take, List.length_drop] at hl
    have hplen : 0 < pat.length := List.length_pos.mpr hp
    omega
  · exact fun h => h.2

theorem strstrIdx_eq_some (hay pat : List Char) (hp : pat ≠ []) (i : Nat)
    (h : strstrIdx hay pat = some i) :
    occursAt pat hay i ∧ ∀ j, j < i → ¬ occursAt pat hay j := by
  obtain ⟨h1, _, _, h4⟩ := scanFirst_eq_some _ _ _ _ h
  refine ⟨(matchAt_eq_true_iff hay pat i hp).mp h1, ?_⟩
  intro j hj hocc
  have h5 := h4 j (Nat.zero_le _) hj
  have h6 := (matchAt_eq_true_iff hay pat j hp).mpr hocc
  rw [h6] at h5
  exact Bool.noConfusion h5

theorem strstrIdx_ne_none_of_occurs (hay pat : List Char) (hp : pat ≠ [])
    (h : occursIn pat hay) : strstrIdx hay pat ≠ none := by
  obtain ⟨j, hj⟩ := h
  have hjle : j ≤ hay.length := by
    have := hj.1
    have hplen : 0 < pat.length := List.length_pos.mpr hp
    omega
  obtain ⟨i, hi⟩ := scanFirst_some_of_ex (fun i => matchAt hay pat i)
    (hay.length + 1) 0 j (Nat.zero_le _) (by omega)
    ((matchAt_eq_true_iff hay pat j hp).mpr hj)
  simp [strstrIdx, hi]

theorem findIndex_eq_none_iff {α : Type} [DecidableEq α] (v : α) (l : List α) :
    findIndex v l = none ↔ v ∉ l := by
  induction l with
  | nil => simp [findIndex]
  | cons x xs ih =>
    by_cases hx : x = v
    · simp [findIndex, hx]
    · simp [findIndex, hx, ih, Ne.symm hx]

theorem findIndex_eq_some {α : Type} [DecidableEq α] (v : α) :
    ∀ (l : List α) (i : Nat), findIndex v l = some i →
      l.get? i = some v ∧ ∀ j, j < i → l.get? j ≠ some v := by
  intro l
  induction l with
  | nil => intro i h; simp [findIndex] at h
  | cons x xs ih =>
    intro i h
    by_cases hx : x = v
    · simp only [findIndex, hx, if_pos] at h
      obtain rfl : (0 : Nat) = i := by simpa using h
      simp [hx]
    · have h' : Option.map (· + 1) (findIndex v xs) = some i := by
        simpa [findIndex, hx] using h
      cases hfi : findIndex v xs with
      | none => rw [hfi] at h'; simp at h'
      | some i' =>
        rw [hfi, Option.map_some'] at h'
        obtain rfl : i' + 1 = i := by simpa using h'
        obtain ⟨h1, h2⟩ := ih i' hfi
        refine ⟨by simpa using h1, ?_⟩
        intro j hj
        cases j with
        | zero => simpa using hx
        | succ j' =>
          have := h2 j' (by omega)
          simpa using this

theorem content_initializeFrom (s : List Char) :
    content (DynString.initializeFrom s) = s := by
  by_cases h : s = []
  · subst h; rfl
  · simp [DynString.initializeFrom, content, h, List.take_left']

theorem size_initializeFrom (s : List Char) :
    (DynString.initializeFrom s).size = s.length := by
  by_cases h : s = []
  · subst h; rfl
  · simp [DynString.initializeFrom, h]

theorem strWF_initializeFrom (s : List Char) : strWF (DynString.initializeFrom s) := by
  by_cases h : s = []
  · subst h; exact Or.inl ⟨rfl, rfl⟩
  · refine Or.inr ⟨?_, ?_⟩
    · simp [DynString.initializeFrom, h]
    · simp [DynString.initializeFrom, h, List.drop_left']

theorem strInv_initializeFrom (s : List Char) : strInv (DynString.initializeFrom s) := by
  by_cases h : s = []
  · subst h
    exact ⟨by decide, by decide, by decide⟩
  · rw [DynString.initializeFrom, if_neg h]
    refine ⟨?_, ?_, ?_⟩
    · show s.length < ((s.length + 1 + 31) / 32) * 32
      omega
    · show (((s.length + 1 + 31) / 32) * 32) % 32 = 0
      exact Nat.mul_mod_left _ 32
    · show 0 < ((s.length + 1 + 31) / 32) * 32
      omega

theorem length_content_of_wf (s : DynString) (h : strWF s) :
    (content s).length = s.size := by
  rcases h with ⟨h1, h2⟩ | ⟨h1, _⟩
  · simp [content, h1, h2]
  · simp [content, h1]

theorem data_eq_of_wf (s : DynString) (h : strWF s) (hne : s.size ≠ 0) :
    s.data = content s ++ [nulChar] := by
  rcases h with ⟨h1, _⟩ | ⟨h1, h2⟩
  · exact absurd h1 hne
  · calc s.data = s.data.take s.size ++ s.data.drop s.size :=
          (List.take_append_drop _ _).symm
      _ = content s ++ [nulChar] := by rw [h2]; rfl

theorem cstr_eq_content (s : DynString) (h : strWF s)
    (hn : nulChar ∉ content s) : cstr s = content s := by
  by_cases hz : s.size = 0
  · rcases h with ⟨h1, h2⟩ | ⟨h1, h2⟩
    · simp [cstr, content, h1, h2]
    · have hd : s.data = [nulChar] := by
        rw [hz] at h2
        simpa using h2
      simp [cstr, content, hd, hz]
  · rw [cstr, data_eq_of_wf s h hz]
    rw [List.takeWhile_append_of_pos (by
      intro a ha
      have hane : a ≠ nulChar := fun hc => hn (by rw [← hc]; exact ha)
      simpa using hane)]
    simp

theorem cstr_initializeFrom (s : List Char) (hn : nulChar ∉ s) :
    cstr (DynString.initializeFrom s) = s := by
  rw [cstr_eq_content _ (strWF_initializeFrom s)
    (by rw [content_initializeFrom]; exact hn)]
  exact content_initializeFrom s

theorem takeWhile_of_all {α : Type} {p : α → Bool} :
    ∀ l : List α, (∀ a ∈ l, p a = true) → l.takeWhile p = l := by
  intro l
  induction l with
  | nil => intro _; rfl
  | cons a as ih =>
    intro h
    rw [List.takeWhile_cons_of_pos (h a (by simp))]
    rw [ih fun b hb => h b (by simp [hb])]

theorem takeWhile_append_sngl {α : Type} (p : α → Bool) (x : α) (hx : p x = false) :
    ∀ l : List α, (l ++ [x]).takeWhile p = l.takeWhile p := by
  intro l
  induction l with
  | nil => simp [List.takeWhile_cons, hx]
  | cons a as ih =>
    by_cases ha : p a = true
    · simp only [List.cons_append, List.takeWhile_cons_of_pos ha, ih]
    · have ha' : p a = false := by simpa using ha
      simp [List.takeWhile_cons, ha']

theorem wrap32_eq_self (n : Int) (h0 : 0 ≤ n) (h1 : n ≤ 2147483647) :
    wrap32 n = n := by
  unfold wrap32
  omega

theorem spaceC_eq_false_of_isDigit (c : Char) (h : c.isDigit = true) :
    spaceC c = false := by
  by_contra hs
  have hs' : spaceC c = true := by simpa using hs
  unfold spaceC at hs'
  simp only [Bool.or_eq_true, decide_eq_true_eq] at hs'
  rcases hs' with ((((h1 | h1) | h1) | h1) | h1) | h1 <;>
    rw [h1] at h <;> exact absurd h (by decide)

theorem ne_dash_of_isDigit (c : Char) (h : c.isDigit = true) : c ≠ '-' := by
  intro hc
  rw [hc] at h
  exact absurd h (by decide)

theorem ne_plus_of_isDigit (c : Char) (h : c.isDigit = true) : c ≠ '+' := by
  intro hc
  rw [hc] at h
  exact absurd h (by decide)

theorem ne_nul_of_isDigit (c : Char) (h : c.isDigit = true) : c ≠ nulChar := by
  intro hc
  rw [hc] at h
  exact absurd h (by decide)

/-! ### Claim theorems -/

/-- C8: round-trip.  Constructing a `String` from any byte sequence `s` via
`initialize` and converting back with `toString` yields `s` exactly
(`std::string` may carry interior NUL bytes; both directions copy
character-by-character, so the round-trip is exact for every sequence). -/
theorem toString_initializeFrom_roundtrip (s : List Char) :
    DynString.toString (DynString.initializeFrom s) = s := by
  by_cases h : s = []
  · subst h; rfl
  · simp [DynString.toString, DynString.initializeFrom, content, h, List.take_left']

/-- C10: self-append is a no-op.  `s += s` enters
`operator+=(const String&)` with `this == &input`, so the aliasing guard
returns immediately: the string, its size and its content are unchanged
(the content is not doubled). -/
theorem plusEq_self_noop (s : DynString) :
    DynString.plusEq true s s = s ∧
      (DynString.plusEq true s s).size = s.size ∧
      DynString.toString (DynString.plusEq true s s) = DynString.toString s := by
  have h : DynString.plusEq true s s = s := by simp [DynString.plusEq]
  exact ⟨h, by rw [h], by rw [h]⟩

/-- C9: after construction and after every successful mutation (`append`,
`remove`, `replace`, `clear`, `reverse`, the three assignment operators and
`operator+=`), `size < capacity` holds and `capacity` is a positive multiple
of 32; every non-empty initialization sets
`capacity = ((length + 1) + 31) / 32 * 32` (the rounding rule
`ceil((length + 1) / 32) * 32`). -/
theorem capacity_invariant_spec :
    (∀ input : List Char, strInv (DynString.initializeFrom input)) ∧
    (∀ input : List Char, input ≠ [] →
      (DynString.initializeFrom input).capacity = ((input.length + 1 + 31) / 32) * 32) ∧
    (∀ s t : DynString, strInv s → strInv (DynString.append s t)) ∧
    (∀ s t : DynString, strInv s → strInv (DynString.remove s t)) ∧
    (∀ s o n : DynString, strInv s → strInv (DynString.replace s o n)) ∧
    (∀ s : DynString, strInv (DynString.clear s)) ∧
    (∀ s : DynString, strInv (DynString.reverse s)) ∧
    (∀ (b : Bool) (d i : DynString), strInv d →
      strInv (DynString.assignFromString b d i)) ∧
    (∀ (d : DynString) (i : List Char), strInv d →
      strInv (DynString.assignFromStd d i)) ∧
    (∀ (d : DynString) (i : Option (List Char)), strInv d →
      strInv (DynString.assignFromCString d i)) ∧
    (∀ (b : Bool) (s t : DynString), strInv s → strInv (DynString.plusEq b s t)) := by
  have happend : ∀ s t : DynString, strInv s → strInv (DynString.append s t) := by
    intro s t hs
    rw [DynString.append]
    split
    · exact hs
    · exact strInv_initializeFrom _
  refine ⟨strInv_initializeFrom, ?_, happend, ?_, ?_, ?_, ?_, ?_, ?_, ?_, ?_⟩
  · intro input h
    rw [DynString.initializeFrom, if_neg h]
  · intro s t hs
    rw [DynString.remove]
    split
    · exact hs
    · split
      · exact hs
      · exact strInv_initializeFrom _
  · intro s o n hs
    rw [DynString.replace]
    split
    · exact hs
    · split
      · exact hs
      · exact strInv_initializeFrom _
  · intro s
    exact strInv_initializeFrom _
  · intro s
    exact strInv_initializeFrom _
  · intro b d i hd
    rw [DynString.assignFromString]
    split
    · exact hd
    · exact strInv_initializeFrom _
  · intro d i hd
    rw [DynString.assignFromStd]
    split
    · exact hd
    · exact strInv_initializeFrom _
  · intro d i hd
    cases i with
    | none => exact hd
    | some chars => exact strInv_initializeFrom _
  · intro b s t hs
    rw [DynString.plusEq]
    split
    · exact hs
    · exact happend s t hs

/-- Witness for C9: the invariant, evaluated on a concrete append. -/
theorem capacity_invariant_spec_witness :
    strInv (DynString.append (DynString.initializeFrom ['a', 'b'])
      (DynString.initializeFrom ['c'])) :=
  capacity_invariant_spec.2.2.1 _ _ (by decide)

/-- C1 (code bug): evaluation of the copy-assignment operators at concrete
inputs.  Because `operator=(const String&)` compares the `bool` returned by
`isEmpty()` with `0`, assignment from a NON-empty `String` source is a no-op
(the destination keeps its old content instead of receiving a deep copy),
while assignment from an empty `String` source re-initializes the
destination to the empty state; assignment from an empty C-string also
clears the destination instead of being a no-op. -/
theorem assignment_guard_eval :
    (DynString.assignFromString false (DynString.initializeFrom ['a', 'b', 'c'])
        (DynString.initializeFrom ['x', 'y']) = DynString.initializeFrom ['a', 'b', 'c']) ∧
    (DynString.assignFromString false (DynString.initializeFrom ['a', 'b', 'c'])
        (DynString.initializeFrom ['x', 'y']) ≠ DynString.initializeFrom ['x', 'y']) ∧
    ((DynString.assignFromString false (DynString.initializeFrom ['a', 'b', 'c'])
        (DynString.initializeFrom [])).size = 0) ∧
    (DynString.assignFromString false (DynString.initializeFrom ['a', 'b', 'c'])
        (DynString.initializeFrom []) ≠ DynString.initializeFrom ['a', 'b', 'c']) ∧
    (DynString.assignFromCString (DynString.initializeFrom ['a', 'b', 'c']) (some []) =
        DynString.initializeFrom []) ∧
    (DynString.assignFromCString (DynString.initializeFrom ['a', 'b', 'c']) (some []) ≠
        DynString.initializeFrom ['a', 'b', 'c']) := by
  decide

/-- C2 (code bug): evaluation of `reverse` at `"ab"`.  The loop in
`String::reverse` starts at `i = size` and therefore also copies the null
terminator, so each call grows the string by one character and prepends a
NUL: after one call the size is 3, after two calls the size is 4 and the
content is not the original `"ab"` — `reverse` is not an involution. -/
theorem reverse_off_by_one_eval :
    ((DynString.initializeFrom ['a', 'b']).reverse.size = 3) ∧
    ((DynString.initializeFrom ['a', 'b']).reverse.reverse.size = 4) ∧
    (DynString.toString (DynString.initializeFrom ['a', 'b']).reverse.reverse ≠
      ['a', 'b']) := by
  decide

/-- Counterexample for C6: moving from the one-element array `[10]` leaves
the source with `size = 1` (its `size` member is copied, not reset), so the
moved-from source does not have size 0 together with null storage. -/
theorem moveCtor_counterexample :
    ¬ ((DynArray.moveCtor (fromVector ([10] : List Nat))).2.size = 0 ∧
       (DynArray.moveCtor (fromVector ([10] : List Nat))).2.data = none) := by
  decide

/-- C6 (amended): move-construction transfers the buffer and the size to the
new array and nulls the source's storage, but leaves the source's `size`
member unchanged; the moved-from source therefore satisfies the
"storage null exactly when size is 0" invariant only when it was empty
before the move. -/
theorem moveCtor_spec {α : Type} (a : DynArray α) :
    (DynArray.moveCtor a).1.data = a.data ∧
      (DynArray.moveCtor a).1.size = a.size ∧
      (DynArray.moveCtor a).2.data = none ∧
      (DynArray.moveCtor a).2.size = a.size :=
  ⟨rfl, rfl, rfl, rfl⟩

/-- Counterexample for C3: `toInt` on the buffer `"42abc"` succeeds with 42
(`sscanf("%d")` stops at the first non-digit and reports success), so a
buffer with trailing non-numeric characters does not fail. -/
theorem toInt_counterexample :
    DynString.toInt (DynString.initializeFrom ['4', '2', 'a', 'b', 'c']) =
      Except.ok 42 := by
  rfl

/-- C3 (amended): `toInt` parses a decimal integer from the start of the
buffer and ignores trailing characters.  For any non-empty digit run `ds`
whose value fits in the 32-bit `int` target (at most `INT_MAX`,
2147483647 — beyond it the `sscanf` store overflows and the mathematical
value is not returned), followed by a remainder that does not begin with a
digit, `toInt` succeeds with the value of `ds` (no full-buffer validation);
`toInt("42") = 42`, and `toInt("abc")` fails with the conversion error
because no digit can be parsed at the front. -/
theorem toInt_prefix_parse_spec (ds rest : List Char) (hne : ds ≠ [])
    (hds : ∀ c ∈ ds, c.isDigit = true)
    (hrange : natOfDigits ds ≤ 2147483647)
    (hrest : (rest.headD 'x').isDigit = false) :
    DynString.toInt (DynString.initializeFrom (ds ++ rest)) =
      Except.ok ((natOfDigits ds : Int)) ∧
    DynString.toInt (DynString.initializeFrom ['4', '2']) = Except.ok 42 ∧
    DynString.toInt (DynString.initializeFrom ['a', 'b', 'c']) =
      Except.error ConvError.conversionFailure := by
  refine ⟨?_, by rfl, by rfl⟩
  obtain ⟨d, ds', rfl⟩ : ∃ d ds', ds = d :: ds' := by
    cases ds with
    | nil => exact absurd rfl hne
    | cons d ds' => exact ⟨d, ds', rfl⟩
  have hd : d.isDigit = true := hds d (by simp)
  have hap : (d :: ds') ++ rest ≠ [] := by simp
  have hdata : cstr (DynString.initializeFrom ((d :: ds') ++ rest)) =
      (d :: ds') ++ rest.takeWhile (fun c => c ≠ nulChar) := by
    rw [cstr, DynString.initializeFrom, if_neg hap]
    show (((d :: ds') ++ rest) ++ [nulChar]).takeWhile (fun c => c ≠ nulChar) = _
    rw [List.append_assoc]
    rw [List.takeWhile_append_of_pos
      (fun a ha => by simpa using ne_nul_of_isDigit a (hds a ha))]
    rw [takeWhile_append_sngl _ nulChar (by simp) rest]
  have hr : (rest.takeWhile (fun c => c ≠ nulChar)).takeWhile Char.isDigit = [] := by
    cases rest with
    | nil => rfl
    | cons c cs =>
      have hcd : c.isDigit = false := by simpa using hrest
      by_cases hcn : c = nulChar
      · rw [List.takeWhile_cons_of_neg (by simp [hcn])]
        rfl
      · rw [List.takeWhile_cons_of_pos (by simpa using hcn)]
        rw [List.takeWhile_cons_of_neg (by simp [hcd])]
  have hssc : sscanfD ((d :: ds') ++ rest.takeWhile (fun c => c ≠ nulChar)) =
      some ((natOfDigits (d :: ds') : Int)) := by
    rw [sscanfD, List.cons_append,
      List.dropWhile_cons_of_neg (by simp [spaceC_eq_false_of_isDigit d hd])]
    rw [sscanfSign]
    rw [if_neg (by simp [ne_dash_of_isDigit d hd]),
      if_neg (by simp [ne_plus_of_isDigit d hd])]
    simp only [sscanfDigits]
    have htw : (d :: (ds' ++ rest.takeWhile (fun c => c ≠ nulChar))).takeWhile
        Char.isDigit = d :: ds' := by
      rw [← List.cons_append]
      rw [List.takeWhile_append_of_pos (fun a ha => hds a ha)]
      rw [hr, List.append_nil]
    rw [htw, if_neg (by simp), one_mul]
    rw [wrap32_eq_self _ (Int.natCast_nonneg _) (by exact_mod_cast hrange)]
  rw [DynString.toInt, hdata, hssc]

/-- Witness for C3's amended theorem, at `ds = "42"`, `rest = "abc"`. -/
theorem toInt_prefix_parse_spec_witness :
    DynString.toInt (DynString.initializeFrom (['4', '2'] ++ ['a', 'b', 'c'])) =
      Except.ok ((natOfDigits ['4', '2'] : Int)) ∧
    DynString.toInt (DynString.initializeFrom ['4', '2']) = Except.ok 42 ∧
    DynString.toInt (DynString.initializeFrom ['a', 'b', 'c']) =
      Except.error ConvError.conversionFailure :=
  toInt_prefix_parse_spec ['4', '2'] ['a', 'b', 'c'] (by decide) (by decide)
    (by decide) (by decide)

/-- Counterexample for C5: the empty substring occurs (at index 0) in
`"a"`, yet `contains` returns `-1` because of its empty-needle
short-circuit, so "returns -1 iff the substring does not occur" fails at
the empty substring. -/
theorem contains_counterexample :
    occursIn (content (DynString.initializeFrom []))
      (content (DynString.initializeFrom ['a'])) ∧
    DynString.contains (DynString.initializeFrom ['a']) (DynString.initializeFrom []) =
      -1 :=
  ⟨⟨0, by decide⟩, by decide⟩

/-- C5 (amended): for every non-empty substring `t`, `contains` returns `-1`
iff `t` does not occur in `s`, and otherwise returns the smallest start
index of an occurrence; for an empty `t` it returns `-1` even though the
empty string occurs everywhere. -/
theorem contains_first_index_spec (s t : DynString)
    (hs : (content s).length = s.size) (ht : (content t).length = t.size)
    (hne : t.size ≠ 0) :
    (DynString.contains s t = -1 ↔ ¬ occursIn (content t) (content s)) ∧
    (occursIn (content t) (content s) →
      ∃ i : Nat, DynString.contains s t = (i : Int) ∧
        occursAt (content t) (content s) i ∧
        ∀ j, j < i → ¬ occursAt (content t) (content s) j) := by
  have hct : content t ≠ [] := by
    intro hh
    rw [hh] at ht
    exact hne (by simpa using ht.symm)
  by_cases hgt : s.size < t.size
  · have hno : ¬ occursIn (content t) (content s) := by
      rintro ⟨i, hi⟩
      have h1 := hi.1
      rw [hs, ht] at h1
      omega
    have hc : DynString.contains s t = -1 := by
      simp [DynString.contains, hne, hgt]
    refine ⟨by rw [hc]; exact iff_of_true rfl hno, fun hocc => absurd hocc hno⟩
  · have hcontains : DynString.contains s t =
        match scanFirst (fun i => matchAt (content s) (content t) i) 0
            (s.size - t.size + 1) with
        | some i => (i : Int)
        | none => -1 := by
      rw [DynString.contains, if_neg hne, if_neg hgt]
    cases hscan : scanFirst (fun i => matchAt (content s) (content t) i) 0
        (s.size - t.size + 1) with
    | none =>
      have hno : ¬ occursIn (content t) (content s) := by
        rintro ⟨j, hj⟩
        have h1 := hj.1
        rw [hs, ht] at h1
        obtain ⟨i, hi⟩ := scanFirst_some_of_ex
          (fun i => matchAt (content s) (content t) i)
          (s.size - t.size + 1) 0 j (Nat.zero_le _) (by omega)
          ((matchAt_eq_true_iff _ _ _ hct).mpr hj)
        rw [hscan] at hi
        exact Option.noConfusion hi
      rw [hcontains, hscan]
      exact ⟨iff_of_true rfl hno, fun hocc => absurd hocc hno⟩
    | some i =>
      obtain ⟨h1, _, _, h4⟩ := scanFirst_eq_some _ _ _ _ hscan
      have hocc : occursAt (content t) (content s) i :=
        (matchAt_eq_true_iff _ _ _ hct).mp h1
      have hleast : ∀ j, j < i → ¬ occursAt (content t) (content s) j := by
        intro j hj hjocc
        have h5 := h4 j (Nat.zero_le _) hj
        rw [(matchAt_eq_true_iff _ _ _ hct).mpr hjocc] at h5
        exact Bool.noConfusion h5
      have hval : DynString.contains s t = (i : Int) := by rw [hcontains, hscan]
      refine ⟨?_, fun _ => ⟨i, hval, hocc, hleast⟩⟩
      rw [hval]
      constructor
      · intro h
        omega
      · intro hno
        exact absurd ⟨i, hocc⟩ hno

/-- Witness for C5's amended theorem: `contains "ab" "b" = 1`, the least
occurrence index. -/
theorem contains_first_index_spec_witness :
    ∃ i : Nat,
      DynString.contains (DynString.initializeFrom ['a', 'b'])
          (DynString.initializeFrom ['b']) = (i : Int) ∧
      occursAt (content (DynString.initializeFrom ['b']))
          (content (DynString.initializeFrom ['a', 'b'])) i ∧
      ∀ j, j < i → ¬ occursAt (content (DynString.initializeFrom ['b']))
          (content (DynString.initializeFrom ['a', 'b'])) j :=
  (contains_first_index_spec (DynString.initializeFrom ['a', 'b'])
      (DynString.initializeFrom ['b']) (by decide) (by decide) (by decide)).2
    ⟨1, by decide⟩

/-- Counterexample for C4: at `s` built from the 3-byte sequence
`'a', NUL, 'b'` (reachable, since `initialize` copies every byte of a
`std::string`) and `t = "b"`, the substring `t` is non-empty, not longer
than `s`, and occurs in `s`'s content at index 2, yet `remove` is a no-op:
`strstr` searches the C string, which ends at the interior NUL, and never
sees the occurrence — so remove does not remove the first occurrence
there. -/
theorem remove_strstr_nul_counterexample :
    occursIn (content (DynString.initializeFrom ['b']))
      (content (DynString.initializeFrom ['a', nulChar, 'b'])) ∧
    (DynString.initializeFrom ['b']).size ≠ 0 ∧
    (DynString.initializeFrom ['b']).size ≤
      (DynString.initializeFrom ['a', nulChar, 'b']).size ∧
    DynString.remove (DynString.initializeFrom ['a', nulChar, 'b'])
        (DynString.initializeFrom ['b']) =
      DynString.initializeFrom ['a', nulChar, 'b'] :=
  ⟨⟨2, by decide⟩, by decide, by decide, by decide⟩

/-- C4 (amended): for well-formed strings whose content is free of interior
NUL bytes, `remove` deletes exactly the first occurrence of the substring
(content becomes `take i ++ drop (i + t.size)` at the least occurrence index
`i`, so later occurrences remain in place) and the size drops by `t.size`;
it is a no-op when the substring is empty, longer than the string, or does
not occur.  The NUL-free restriction is forced: `remove` locates the
substring with `strstr` on the C string, which stops at the first interior
NUL, so occurrences beyond it are missed. -/
theorem remove_first_occurrence_spec (s t : DynString)
    (hws : strWF s) (hwt : strWF t)
    (hns : nulChar ∉ content s) (hnt : nulChar ∉ content t) :
    ((t.size = 0 ∨ s.size < t.size ∨ ¬ occursIn (content t) (content s)) →
      DynString.remove s t = s) ∧
    (t.size ≠ 0 → occursIn (content t) (content s) →
      ∃ i : Nat, occursAt (content t) (content s) i ∧
        (∀ j, j < i → ¬ occursAt (content t) (content s) j) ∧
        content (DynString.remove s t) =
          (content s).take i ++ (content s).drop (i + t.size) ∧
        (DynString.remove s t).size = s.size - t.size) := by
  have hcs : cstr s = content s := cstr_eq_content s hws hns
  have hct : cstr t = content t := cstr_eq_content t hwt hnt
  have hlens : (content s).length = s.size := length_content_of_wf s hws
  have hlent : (content t).length = t.size := length_content_of_wf t hwt
  constructor
  · rintro (h | h | h)
    · rw [DynString.remove, if_pos (Or.inl h)]
    · rw [DynString.remove, if_pos (Or.inr h)]
    · rw [DynString.remove]
      split
      · rfl
      · rename_i hguard
        have hne : t.size ≠ 0 := fun hh => hguard (Or.inl hh)
        have hctne : content t ≠ [] := by
          intro hh
          rw [hh] at hlent
          exact hne (by simpa using hlent.symm)
        have hcstrtne : cstr t ≠ [] := by rw [hct]; exact hctne
        cases hidx : strstrIdx (cstr s) (cstr t) with
        | none => rfl
        | some i =>
          exfalso
          obtain ⟨hocc, _⟩ := strstrIdx_eq_some _ _ hcstrtne i hidx
          rw [hcs, hct] at hocc
          exact h ⟨i, hocc⟩
  · intro hne hocc
    have hctne : content t ≠ [] := by
      intro hh
      rw [hh] at hlent
      exact hne (by simpa using hlent.symm)
    have hcstrtne : cstr t ≠ [] := by rw [hct]; exact hctne
    have hsize_le : t.size ≤ s.size := by
      obtain ⟨j, hj⟩ := hocc
      have h1 := hj.1
      rw [hlens, hlent] at h1
      omega
    have hguard : ¬ (t.size = 0 ∨ s.size < t.size) := by
      rintro (h | h) <;> omega
    have hoccc : occursIn (cstr t) (cstr s) := by rw [hcs, hct]; exact hocc
    cases hidx : strstrIdx (cstr s) (cstr t) with
    | none => exact absurd hidx (strstrIdx_ne_none_of_occurs _ _ hcstrtne hoccc)
    | some i =>
      obtain ⟨hocci, hleast⟩ := strstrIdx_eq_some _ _ hcstrtne i hidx
      rw [hcs, hct] at hocci hleast
      have hib : i + t.size ≤ s.size := by
        have h1 := hocci.1
        rw [hlens, hlent] at h1
        omega
      have hred : DynString.remove s t =
          DynString.initializeFrom
            (((cstr s).take i ++
                (s.data.drop (i + t.size)).take (s.size - (i + t.size))).takeWhile
              (fun c => c ≠ nulChar)) := by
        rw [DynString.remove, if_neg hguard, hidx]
      have hdata : s.data = content s ++ [nulChar] :=
        data_eq_of_wf s hws (by omega)
      have hdrop : s.data.drop (i + t.size) =
          (content s).drop (i + t.size) ++ [nulChar] := by
        rw [hdata, List.drop_append_eq_append_drop]
        rw [Nat.sub_eq_zero_of_le (by rw [hlens]; omega)]
        rfl
      have htake : ((content s).drop (i + t.size) ++ [nulChar]).take
          (s.size - (i + t.size)) = (content s).drop (i + t.size) :=
        List.take_left' (by rw [List.length_drop, hlens])
      have hsub : ∀ c ∈ (content s).take i ++ (content s).drop (i + t.size),
          (c ≠ nulChar) = True := by
        intro c hc
        simp only [eq_iff_iff, iff_true]
        intro hcn
        subst hcn
        rcases List.mem_append.mp hc with h | h
        · exact hns (List.take_subset i _ h)
        · exact hns (List.drop_subset _ _ h)
      have hnewData : ((cstr s).take i ++
          (s.data.drop (i + t.size)).take (s.size - (i + t.size))).takeWhile
            (fun c => c ≠ nulChar) =
          (content s).take i ++ (content s).drop (i + t.size) := by
        rw [hcs, hdrop, htake]
        exact takeWhile_of_all _ fun a ha => by
          simpa using (hsub a ha).mpr trivial
      refine ⟨i, hocci, hleast, ?_, ?_⟩
      · rw [hred, hnewData, content_initializeFrom]
      · rw [hred, hnewData, size_initializeFrom]
        rw [List.length_append, List.length_take, List.length_drop, hlens]
        omega

/-- Witness for C4: removing `"ab"` from `"xabab"` removes only the first
occurrence (at index 1), leaving `"xab"`. -/
theorem remove_first_occurrence_spec_witness :
    ∃ i : Nat,
      occursAt (content (DynString.initializeFrom ['a', 'b']))
          (content (DynString.initializeFrom ['x', 'a', 'b', 'a', 'b'])) i ∧
      (∀ j, j < i → ¬ occursAt (content (DynString.initializeFrom ['a', 'b']))
          (content (DynString.initializeFrom ['x', 'a', 'b', 'a', 'b'])) j) ∧
      content (DynString.remove (DynString.initializeFrom ['x', 'a', 'b', 'a', 'b'])
          (DynString.initializeFrom ['a', 'b'])) =
        (content (DynString.initializeFrom ['x', 'a', 'b', 'a', 'b'])).take i ++
          (content (DynString.initializeFrom ['x', 'a', 'b', 'a', 'b'])).drop
            (i + (DynString.initializeFrom ['a', 'b']).size) ∧
      (DynString.remove (DynString.initializeFrom ['x', 'a', 'b', 'a', 'b'])
          (DynString.initializeFrom ['a', 'b'])).size =
        (DynString.initializeFrom ['x', 'a', 'b', 'a', 'b']).size -
          (DynString.initializeFrom ['a', 'b']).size :=
  (remove_first_occurrence_spec (DynString.initializeFrom ['x', 'a', 'b', 'a', 'b'])
      (DynString.initializeFrom ['a', 'b']) (by decide) (by decide) (by decide)
      (by decide)).2 (by decide) ⟨1, by decide⟩

/-- C7: `Array<T>::remove(value)` removes the first element equal to
`value` — the element at the least matching index `i` — shifting the
subsequent elements left by one (`take i ++ drop (i + 1)`) and decrementing
`size`; when no element matches it throws the not-found error, having
performed no writes, so the array is unchanged.  `hwf` states that the
buffer holds exactly `size` elements, as every reachable array does. -/
theorem dynArray_remove_spec {α : Type} [DecidableEq α] (a : DynArray α)
    (v : α) (hwf : (elems a).length = a.size) :
    (v ∈ elems a →
      ∃ b i, DynArray.remove a v = Except.ok b ∧
        (elems a).get? i = some v ∧
        (∀ j, j < i → (elems a).get? j ≠ some v) ∧
        b.size = a.size - 1 ∧
        elems b = (elems a).take i ++ (elems a).drop (i + 1)) ∧
    (v ∉ elems a → DynArray.remove a v = Except.error ArrayError.notFound) := by
  constructor
  · intro hmem
    cases hfi : findIndex v (elems a) with
    | none => exact absurd ((findIndex_eq_none_iff v _).mp hfi) (by simp [hmem])
    | some i =>
      obtain ⟨h1, h2⟩ := findIndex_eq_some v _ i hfi
      refine ⟨{ data := some ((elems a).take i ++ (elems a).drop (i + 1))
                size := a.size - 1 },
        i, ?_, h1, h2, rfl, ?_⟩
      · rw [DynArray.remove, hfi]
      · have hilt : i < (elems a).length := by
          rcases List.get?_eq_some.mp h1 with ⟨h, _⟩
          exact h
        have hlen : ((elems a).take i ++ (elems a).drop (i + 1)).length =
            a.size - 1 := by
          rw [List.length_append, List.length_take, List.length_drop]
          omega
        show ((elems a).take i ++ (elems a).drop (i + 1)).take (a.size - 1) = _
        rw [← hlen]
        exact List.take_length _
  · intro hnm
    rw [DynArray.remove, (findIndex_eq_none_iff v _).mpr hnm]

/-- Witness for C7: removing `10` from `[10, 20, 10]` removes only the
first occurrence, yielding `[20, 10]` with size 2. -/
theorem dynArray_remove_spec_witness :
    ∃ b i, DynArray.remove (fromVector ([10, 20, 10] : List Nat)) 10 =
        Except.ok b ∧
      (elems (fromVector ([10, 20, 10] : List Nat))).get? i = some 10 ∧
      (∀ j, j < i →
        (elems (fromVector ([10, 20, 10] : List Nat))).get? j ≠ some 10) ∧
      b.size = (fromVector ([10, 20, 10] : List Nat)).size - 1 ∧
      elems b = (elems (fromVector ([10, 20, 10] : List Nat))).take i ++
        (elems (fromVector ([10, 20, 10] : List Nat))).drop (i + 1) :=
  (dynArray_remove_spec (fromVector ([10, 20, 10] : List Nat)) 10
      (by decide)).1 (by decide)

end ZenCorex
